import Mathlib

/-!
Verification of the go-irc/irc message model, client filters, membership
tracker and mask utility.

Strings are modelled as lists of characters (`Str`), mirroring Go's byte/rune
sequences.  Each definition is a shallow embedding of the corresponding Go
function; the Go file and symbol are named in the doc comment.
-/

namespace GoIrc

/-- Strings as lists of characters. -/
abbrev Str := List Char

/-- The whitespace characters trimmed by Go's `strings.TrimSpace`
(ASCII plus Latin-1 NEL and NBSP; rarer Unicode space runes do not occur
in any input considered here). -/
def goSpaceChars : Str :=
  [' ', '\t', '\n', Char.ofNat 11, Char.ofNat 12, '\r', Char.ofNat 133, Char.ofNat 160]

/-- `unicode.IsSpace` restricted as in `goSpaceChars`. -/
def goIsSpace (c : Char) : Bool := goSpaceChars.contains c

/-- `strings.TrimSpace`, left part. -/
def trimLeft (s : Str) : Str := s.dropWhile goIsSpace

/-- `strings.TrimSpace`, right part. -/
def trimRight (s : Str) : Str := (s.reverse.dropWhile goIsSpace).reverse

/-- `strings.TrimSpace`. -/
def trimSpace (s : Str) : Str := trimRight (trimLeft s)

/-- `strings.SplitN(s, sep, 2)`: split at the first occurrence of `sep`;
`none` when `sep` does not occur (Go returns the 1-element slice there). -/
def splitOnFirst (sep : Str) : Str → Option (Str × Str)
  | [] => if sep.isPrefixOf ([] : Str) then some ([], []) else none
  | c :: rest =>
    if sep.isPrefixOf (c :: rest) then some ([], (c :: rest).drop sep.length)
    else
      match splitOnFirst sep rest with
      | none => none
      | some (l, r) => some (c :: l, r)

/-- Split a string on every occurrence of the character `c`
(`strings.Split` with a 1-character separator). -/
def splitChar (c : Char) : Str → List Str
  | [] => [[]]
  | x :: rest =>
    if x = c then [] :: splitChar c rest
    else
      match splitChar c rest with
      | [] => [[x]]
      | w :: ws => (x :: w) :: ws

/-- `strings.FieldsFunc(s, r == ' ')`: split on spaces, discarding empty
fields. -/
def fieldsSpace (s : Str) : List Str := (splitChar ' ' s).filter (· ≠ [])

/-- `irc.Identity` (src/parser.go): the prefix of a message. -/
structure Identity where
  nick : Str
  user : Str
  host : Str
deriving DecidableEq, Repr

/-- The zero `Identity`. -/
def emptyIdentity : Identity := ⟨[], [], []⟩

/-- `irc.ParseIdentity` (src/parser.go): split on the first `@` (right side is
host), then split the left side on the first `!` (left is nick, right is
user); with no separator the whole input is the host. -/
def parseIdentity (line : Str) : Identity :=
  match splitOnFirst ['@'] line with
  | none => ⟨[], [], line⟩
  | some (u, h) =>
    match splitOnFirst ['!'] u with
    | none => ⟨[], u, h⟩
    | some (n, us) => ⟨n, us, h⟩

/-- `Identity.String` (src/parser.go). -/
def identityString (i : Identity) : Str :=
  if i.nick ≠ [] then i.nick ++ '!' :: i.user ++ '@' :: i.host
  else if i.user ≠ [] then i.user ++ '@' :: i.host
  else i.host

/-- `irc.Event` (src/parser.go): identity, command and arguments. -/
structure Event where
  ident : Identity
  command : Str
  args : List Str
deriving DecidableEq, Repr

/-- Final stage of `irc.ParseEvent` (src/parser.go): split the rest at the
first `" :"` into head and trailing, split the head into fields, take the
first field as the command, append the trailing as the last argument. -/
def parseEventCmd (id : Identity) (rest : Str) : Option Event :=
  let hdtr : Str × Option Str :=
    match splitOnFirst [' ', ':'] rest with
    | none => (rest, none)
    | some (a, b) => (a, some b)
  match fieldsSpace hdtr.1 with
  | [] => none
  | cmd :: rest2 =>
    some ⟨id, cmd, rest2 ++ (match hdtr.2 with | none => [] | some t => [t])⟩

/-- `irc.ParseEvent` (src/parser.go): trim, reject empty lines, read an
optional `:`-led identity up to the first space, then `parseEventCmd`;
`none` models Go's `nil` return. -/
def parseEvent (line : Str) : Option Event :=
  let l := trimSpace line
  if l.isEmpty then none
  else if l.head? = some ':' then
    match splitOnFirst [' '] l with
    | none => none
    | some (pre0, rest) => parseEventCmd (parseIdentity pre0.tail) rest
  else parseEventCmd emptyIdentity l

/-- `Event.Trailing` (src/parser.go): the last argument, or empty. -/
def eventTrailing (e : Event) : Str :=
  if e.args.length < 1 then [] else e.args.getD (e.args.length - 1) []

/-- `Event.FromChannel` (src/parser.go): the first byte of the first
argument is `#` or `&`. -/
def eventFromChannel (e : Event) : Bool :=
  if e.args.length < 1 || (e.args.getD 0 []).length < 1 then false
  else if (e.args.getD 0 []).getD 0 ' ' = '#' ∨ (e.args.getD 0 []).getD 0 ' ' = '&' then true
  else false

/-- `Event.String` (src/parser.go): prefix (when the host is set), command,
space-joined arguments, the last argument marked with `" :"` when it contains
a space or starts with `:`.  Indexing `trailing[0]` on an empty trailing
argument panics in Go; `none` models that panic. -/
def eventString (e : Event) : Option Str :=
  let pre : Str := if e.ident.host ≠ [] then ':' :: (identityString e.ident ++ [' ']) else []
  match e.args.getLast? with
  | none => some (pre ++ e.command)
  | some t =>
    let mids := e.args.dropLast
    let midStr : Str := if mids ≠ [] then ' ' :: List.intercalate [' '] mids else []
    match t with
    | [] => none
    | c :: _ =>
      some (pre ++ e.command ++ midStr ++
        (if t.contains ' ' || c = ':' then ' ' :: ':' :: t else ' ' :: t))

/-- A non-trailing argument (or a command) that survives the round trip:
non-empty, space-free, not starting with `:`. -/
def eventWordOk (a : Str) : Prop :=
  a ≠ [] ∧ ' ' ∉ a ∧ a.head? ≠ some ':'

/-- An identity that survives the round trip: either completely empty (no
prefix is written) or with a host, no spaces, and no separator characters in
positions that would shift the split. -/
def identityOk (i : Identity) : Prop :=
  i = emptyIdentity ∨
    (i.host ≠ [] ∧ ' ' ∉ i.nick ∧ ' ' ∉ i.user ∧ ' ' ∉ i.host ∧
     '@' ∉ i.nick ∧ '@' ∉ i.user ∧ '!' ∉ i.nick ∧
     (i.nick = [] → '!' ∉ i.user) ∧ (i.nick = [] → i.user = [] → '@' ∉ i.host))

/-- Validity for the amended round-trip claim: non-empty space-free command
that neither starts with `:` nor starts/ends with whitespace, a round-trip
safe identity, word-shaped non-trailing arguments, and a non-empty trailing
argument not ending in whitespace. -/
def eventValid (e : Event) : Prop :=
  e.command ≠ [] ∧ ' ' ∉ e.command ∧
  (∀ c, e.command.head? = some c → c ≠ ':' ∧ goIsSpace c = false) ∧
  (∀ c, e.command.getLast? = some c → goIsSpace c = false) ∧
  identityOk e.ident ∧
  (∀ a ∈ e.args.dropLast, eventWordOk a) ∧
  (∀ t, e.args.getLast? = some t → t ≠ [] ∧ ∀ c, t.getLast? = some c → goIsSpace c = false)

/-- `irc.Prefix`: the source of a message, `name[!user][@host]`.
Modelled from the spec: the `Prefix` type itself is not under src (only its
tests and callers are). -/
structure Prefix where
  name : Str
  user : Str
  host : Str
deriving DecidableEq, Repr

/-- Modelled from the spec: `ParsePrefix` is not under src.  Split on the
first `@` (right side is host), then split the left side on the first `!`
(left is name, right is user); with no separator the whole input is the
name. -/
def parsePrefix (line : Str) : Prefix :=
  match splitOnFirst ['@'] line with
  | none =>
    match splitOnFirst ['!'] line with
    | none => ⟨line, [], []⟩
    | some (n, u) => ⟨n, u, []⟩
  | some (l, h) =>
    match splitOnFirst ['!'] l with
    | none => ⟨l, [], h⟩
    | some (n, u) => ⟨n, u, h⟩

/-- `irc.Message`: tags, source prefix, command and parameters.
Modelled from the spec: the `Message` type is not under src (only its tests
and callers, src/client.go and src/tracker.go, are).  The Go field `Prefix`
is called `source` here. -/
structure Message where
  tags : List (Str × Str)
  source : Prefix
  command : Str
  params : List Str
deriving DecidableEq, Repr

/-- `Message.Trailing`.  Modelled from the spec: the last param, or empty
when there are none. -/
def messageTrailing (m : Message) : Str :=
  if m.params.length < 1 then [] else m.params.getD (m.params.length - 1) []

/-- Unescape one IRCv3 tag value.  Modelled from the spec escape map; a
backslash before any other byte is dropped, a dangling backslash is
dropped. -/
def tagUnescape : Str → Str
  | [] => []
  | '\\' :: [] => []
  | '\\' :: c :: rest =>
    (match c with
     | ':' => [';']
     | 's' => [' ']
     | '\\' => ['\\']
     | 'r' => ['\r']
     | 'n' => ['\n']
     | _ => [c]) ++ tagUnescape rest
  | c :: rest => c :: tagUnescape rest

/-- Parse a tag section.  Modelled from the spec: split on `;`, each entry
split on the first `=` into key and escaped value. -/
def parseTags (s : Str) : List (Str × Str) :=
  (splitChar ';' s).map fun t =>
    match splitOnFirst ['='] t with
    | none => (t, [])
    | some (k, v) => (k, tagUnescape v)

/-- The parse error kinds named by the spec. -/
inductive ParseError where
  | zeroLengthMessage
  | missingDataAfterTags
  | missingDataAfterPrefix
  | missingCommand
deriving DecidableEq, Repr

/-- Final stage of the spec-modelled `ParseMessage`: split the remainder at
the first `" :"` into head and trailing, split the head into space-separated
fields discarding empties; no field left means `missingCommand`, otherwise
the first field is the command and the trailing (when present) is appended
as the last param. -/
def parseMessageCmd (tgs : List (Str × Str)) (pfx : Prefix) (l2 : Str) :
    Except ParseError Message :=
  let hdtr : Str × Option Str :=
    match splitOnFirst [' ', ':'] l2 with
    | none => (l2, none)
    | some (a, b) => (a, some b)
  match fieldsSpace hdtr.1 with
  | [] => .error .missingCommand
  | cmd :: rest2 =>
    .ok ⟨tgs, pfx, cmd, rest2 ++ (match hdtr.2 with | none => [] | some t => [t])⟩

/-- Middle stage of the spec-modelled `ParseMessage`: a leading `:` reads a
prefix up to the next space (no space means `missingDataAfterPrefix`). -/
def parseMessageRest (tgs : List (Str × Str)) (l1 : Str) : Except ParseError Message :=
  if l1.head? = some ':' then
    match splitOnFirst [' '] l1 with
    | none => .error .missingDataAfterPrefix
    | some (p0, rest) => parseMessageCmd tgs (parsePrefix p0.tail) rest
  else parseMessageCmd tgs ⟨[], [], []⟩ l1

/-- Modelled from the spec: `ParseMessage` is not under src (only its tests
reference `ErrZeroLengthMessage` and friends).  Trim whitespace, fail on
empty input with `zeroLengthMessage`; a leading `@` reads tags up to the
next space (else `missingDataAfterTags`); the rest is handled by
`parseMessageRest` and `parseMessageCmd`. -/
def parseMessage (line : Str) : Except ParseError Message :=
  let l := trimSpace line
  if l.isEmpty then .error .zeroLengthMessage
  else if l.head? = some '@' then
    match splitOnFirst [' '] l with
    | none => .error .missingDataAfterTags
    | some (t0, rest) => parseMessageRest (parseTags t0.tail) rest
  else parseMessageRest [] l

/-- `Client.FromChannel` (src/client.go): true iff the first param differs
from the client's current nick. -/
def clientFromChannel (currentNick : Str) (m : Message) : Bool :=
  if m.params.length < 1 then false
  else m.params.getD 0 [] != currentNick

/-- The CTCP framing byte `0x01`. -/
def ctcpDelim : Char := Char.ofNat 1

/-- `clientFilters["PRIVMSG"]` (src/client.go): when the trailing param is at
least 2 bytes and starts and ends with `0x01`, strip the framing bytes and
change the command to `CTCP`; otherwise leave the message unchanged. -/
def privmsgFilter (m : Message) : Message :=
  let lastArg := messageTrailing m
  let lastIdx := lastArg.length - 1
  if 0 < lastIdx ∧ lastArg.getD 0 ' ' = ctcpDelim ∧ lastArg.getD lastIdx ' ' = ctcpDelim then
    { m with
      command := "CTCP".toList
      params := m.params.dropLast ++ [(lastArg.drop 1).take (lastIdx - 1)] }
  else m

/-- `irc.ChannelState` (src/tracker.go): name, topic and user set. -/
structure ChannelState where
  name : Str
  topic : Str
  users : List Str
deriving DecidableEq, Repr

/-- The tracker's channel map `map[string]*ChannelState`, modelled as a
finite function. -/
abbrev ChMap := Str → Option ChannelState

/-- Go map insert/update on the tracker's channel map. -/
def insertCh (m : ChMap) (k : Str) (v : ChannelState) : ChMap :=
  fun k' => if k' = k then some v else m k'

/-- Go map delete on the tracker's channel map. -/
def deleteCh (m : ChMap) (k : Str) : ChMap :=
  fun k' => if k' = k then none else m k'

/-- Adding a nick to a Go `map[string]struct{}` user set. -/
def userAdd (users : List Str) (u : Str) : List Str :=
  if users.contains u then users else users ++ [u]

/-- Removing a nick from a Go `map[string]struct{}` user set. -/
def userDel (users : List Str) (u : Str) : List Str :=
  users.filter (· != u)

/-- `irc.Tracker` (src/tracker.go): channel map and current nick (the
ISupport tracker is irrelevant to JOIN/PART/KICK and not modelled). -/
structure Tracker where
  channels : ChMap
  currentNick : Str

/-- `Tracker.handleJoin` (src/tracker.go).  The pair is (state after, error):
Go mutates the receiver and returns an error, so an early error leaves the
tracker unchanged. -/
def handleJoin (t : Tracker) (msg : Message) : Tracker × Option Str :=
  if msg.params.length ≠ 1 then (t, some "malformed JOIN message".toList)
  else
    let user := msg.source.name
    let channel := messageTrailing msg
    match t.channels channel with
    | none =>
      if user ≠ t.currentNick then
        (t, some "received JOIN message for unknown channel".toList)
      else
        ({ t with channels :=
            insertCh t.channels channel ⟨channel, [], userAdd [] user⟩ }, none)
    | some st =>
      ({ t with channels :=
          insertCh t.channels channel { st with users := userAdd st.users user } }, none)

/-- `Tracker.handlePart` (src/tracker.go). -/
def handlePart (t : Tracker) (msg : Message) : Tracker × Option Str :=
  if msg.params.length < 1 then (t, some "malformed PART message".toList)
  else
    let user := msg.source.name
    let channel := msg.params.getD 0 []
    match t.channels channel with
    | none => (t, some "received PART message for unknown channel".toList)
    | some st =>
      if user = t.currentNick then ({ t with channels := deleteCh t.channels channel }, none)
      else
        ({ t with channels :=
            insertCh t.channels channel { st with users := userDel st.users user } }, none)

/-- `Tracker.handleKick` (src/tracker.go): like PART, but the victim is
`params[1]` and exactly 3 params are required. -/
def handleKick (t : Tracker) (msg : Message) : Tracker × Option Str :=
  if msg.params.length ≠ 3 then (t, some "malformed KICK message".toList)
  else
    let user := msg.params.getD 1 []
    let channel := msg.params.getD 0 []
    match t.channels channel with
    | none => (t, some "received KICK message for unknown channel".toList)
    | some st =>
      if user = t.currentNick then ({ t with channels := deleteCh t.channels channel }, none)
      else
        ({ t with channels :=
            insertCh t.channels channel { st with users := userDel st.users user } }, none)

/-! ### Mask-to-regex (src/utils.go MaskToRegex) -/

/-- The characters Go's `regexp.QuoteMeta` escapes
(backslash, dot, plus, star, question mark, parens, pipe, brackets, braces,
caret, dollar). -/
def goRegexSpecialChars : Str :=
  ['\\', '.', '+', '*', '?', '(', ')', '|', '[', ']', Char.ofNat 123, Char.ofNat 125, '^', '$']

/-- `regexp.QuoteMeta` on one character. -/
def quoteMetaChar (c : Char) : Str :=
  if goRegexSpecialChars.contains c then ['\\', c] else [c]

/-- `regexp.QuoteMeta`. -/
def quoteMeta (s : Str) : Str := (s.map quoteMetaChar).flatten

/-- The characters `strings.IndexAny(unprocessed, "\\?*")` searches for. -/
def maskSpecials : Str := ['\\', '?', '*']

/-- `strings.IndexAny` with the mask specials, split-style: the part before
the first special, the special itself, and the part after. -/
def findSpecial : Str → Option (Str × Char × Str)
  | [] => none
  | c :: rest =>
    if maskSpecials.contains c then some ([], c, rest)
    else
      match findSpecial rest with
      | none => none
      | some (b, x, a) => some (c :: b, x, a)

/-- The loop of `MaskToRegex` (src/utils.go): `b` is the `backslashed` flag,
`u` the `unprocessed` suffix.  With no special left, flush the pending
backslash and quote the rest; a special right after a pending backslash is
written quoted; otherwise flush the pending backslash, quote the run before
the special, and dispatch on the special (`\\` sets the flag, `?` writes
`.`, `*` writes `.*`). -/
def mtrAux (b : Bool) (u : Str) : Str :=
  match h : findSpecial u with
  | none => (if b then quoteMeta ['\\'] else []) ++ quoteMeta u
  | some (before, x, after) =>
    if b ∧ before = [] then quoteMeta [x] ++ mtrAux false after
    else
      (if b then quoteMeta ['\\'] else []) ++ quoteMeta before ++
      (if x = '\\' then mtrAux true after
       else if x = '?' then '.' :: mtrAux false after
       else '.' :: '*' :: mtrAux false after)
termination_by u.length
decreasing_by
  all_goals
    have key : ∀ (v : Str) (bb : Str) (xx : Char) (aa : Str),
        findSpecial v = some (bb, xx, aa) → aa.length < v.length := by
      intro v
      induction v with
      | nil => intro bb xx aa hh; exact Option.noConfusion hh
      | cons c rest ih =>
        intro bb xx aa hh
        by_cases hc : maskSpecials.contains c
        · rw [findSpecial, if_pos hc] at hh
          injection hh with hh
          rw [Prod.ext_iff] at hh
          rw [Prod.ext_iff] at hh
          obtain ⟨-, -, hh⟩ := hh
          subst hh
          simp
        · rw [findSpecial, if_neg hc] at hh
          cases hfs : findSpecial rest with
          | none => rw [hfs] at hh; exact Option.noConfusion hh
          | some w =>
            obtain ⟨b', x', a'⟩ := w
            rw [hfs] at hh
            injection hh with hh
            rw [Prod.ext_iff] at hh
            rw [Prod.ext_iff] at hh
            obtain ⟨-, -, hh⟩ := hh
            subst hh
            exact Nat.lt_succ_of_lt (ih b' x' a' hfs)
    exact key u before x after h

/-- `irc.MaskToRegex` (src/utils.go): the produced regex source string,
anchored with `^` and `$`. -/
def maskToRegex (rawMask : Str) : Str :=
  '^' :: (mtrAux false rawMask ++ ['$'])

/-- One atom of the regex fragment `MaskToRegex` emits: a quoted literal
character, `.` or `.*`. -/
inductive MaskAtom where
  | lit (c : Char)
  | anyChar
  | anySeq
deriving DecidableEq, Repr

/-- The per-character production table of the spec (§4.9): unescaped `*` and
`?` become the wildcard atoms, `\\`, `\?`, `\*` become the escaped literal,
a backslash before any other byte stays a literal backslash, everything else
is a literal. -/
def maskAtoms : Str → List MaskAtom
  | [] => []
  | c :: rest =>
    if c = '\\' then
      match rest with
      | [] => [.lit '\\']
      | d :: rest2 =>
        if maskSpecials.contains d then .lit d :: maskAtoms rest2
        else .lit '\\' :: maskAtoms (d :: rest2)
    else if c = '*' then .anySeq :: maskAtoms rest
    else if c = '?' then .anyChar :: maskAtoms rest
    else .lit c :: maskAtoms rest

/-- Regex source text of one atom. -/
def atomRegex : MaskAtom → Str
  | .lit c => quoteMetaChar c
  | .anyChar => ['.']
  | .anySeq => ['.', '*']

/-- Regex source text of an atom sequence. -/
def renderAtoms (ats : List MaskAtom) : Str := (ats.map atomRegex).flatten

/-- Matching semantics of the emitted regex fragment (a quoted literal
matches that character, `.` matches any single character, `.*` matches any
sequence), anchored at both ends. -/
def atomsMatch : List MaskAtom → Str → Bool
  | [], s => s.isEmpty
  | .lit _ :: _, [] => false
  | .lit c :: ats, x :: s => c == x && atomsMatch ats s
  | .anyChar :: _, [] => false
  | .anyChar :: ats, _ :: s => atomsMatch ats s
  | .anySeq :: ats, s =>
    atomsMatch ats s ||
      (match s with
       | [] => false
       | _ :: s' => atomsMatch (.anySeq :: ats) s')
termination_by ats s => (s.length, ats.length)

/-- IRC wildcard mask semantics, from the spec: `*` matches any sequence,
`?` matches exactly one character, `\\`, `\?`, `\*` match the escaped
character literally, a backslash before any other byte matches a literal
backslash, a dangling backslash matches a literal backslash, and any other
character matches itself. -/
def maskMatch : Str → Str → Bool
  | [], s => s.isEmpty
  | c :: p, s =>
    if c = '\\' then
      match p with
      | [] => s == ['\\']
      | d :: p2 =>
        if maskSpecials.contains d then
          match s with
          | [] => false
          | x :: s' => d == x && maskMatch p2 s'
        else
          match s with
          | [] => false
          | x :: s' => '\\' == x && maskMatch (d :: p2) s'
    else if c = '*' then
      maskMatch p s ||
        (match s with
         | [] => false
         | _ :: s' => maskMatch (c :: p) s')
    else if c = '?' then
      (match s with
       | [] => false
       | _ :: s' => maskMatch p s')
    else
      match s with
      | [] => false
      | x :: s' => c == x && maskMatch p s'
termination_by p s => (s.length, p.length)

/-! ### Helper lemmas about the string primitives -/

theorem isPrefixOf_single (c x : Char) (rest : Str) :
    List.isPrefixOf [c] (x :: rest) = (c == x) := by
  simp [List.isPrefixOf]

theorem splitOnFirst_single_none {c : Char} {s : Str} (h : c ∉ s) :
    splitOnFirst [c] s = none := by
  induction s with
  | nil => rfl
  | cons x rest ih =>
    simp only [List.mem_cons, not_or] at h
    simp only [splitOnFirst, isPrefixOf_single, beq_iff_eq, if_neg h.1, ih h.2]

theorem splitOnFirst_single_append {c : Char} {a : Str} (b : Str) (h : c ∉ a) :
    splitOnFirst [c] (a ++ c :: b) = some (a, b) := by
  induction a with
  | nil => simp [splitOnFirst, isPrefixOf_single]
  | cons x rest ih =>
    simp only [List.mem_cons, not_or] at h
    simp only [List.cons_append, splitOnFirst, isPrefixOf_single, beq_iff_eq, List.append_eq]
    rw [if_neg h.1, ih h.2]

theorem trimLeft_eq_self {s : Str} (h : ∀ c, s.head? = some c → goIsSpace c = false) :
    trimLeft s = s := by
  cases s with
  | nil => rfl
  | cons x rest =>
    simp only [trimLeft, List.dropWhile_cons, h x rfl]
    simp

theorem trimRight_eq_self {s : Str} (h : ∀ c, s.getLast? = some c → goIsSpace c = false) :
    trimRight s = s := by
  unfold trimRight
  rw [show s.reverse.dropWhile goIsSpace = s.reverse from ?_, List.reverse_reverse]
  cases hs : s.reverse with
  | nil => rfl
  | cons x rest =>
    have hx : s.getLast? = some x := by
      rw [← List.head?_reverse, hs]; rfl
    simp only [List.dropWhile_cons, h x hx]
    simp

theorem trimSpace_eq_self {s : Str}
    (h1 : ∀ c, s.head? = some c → goIsSpace c = false)
    (h2 : ∀ c, s.getLast? = some c → goIsSpace c = false) :
    trimSpace s = s := by
  unfold trimSpace
  rw [trimLeft_eq_self h1, trimRight_eq_self h2]

/-! ### C2: prefix parsing with no separators -/

/-- C2 counterexample: on the input `"abc"` (no `!`, no `@`) the parser from
src/parser.go returns an `Identity` whose host — not whose name/nick — is the
whole input; the nick is empty. -/
theorem C2_counterexample :
    parseIdentity "abc".toList = ⟨[], [], "abc".toList⟩ ∧
    (parseIdentity "abc".toList).nick ≠ "abc".toList := by
  constructor
  · rfl
  · decide

/-- C2 (amended): for every prefix string containing neither `!` nor `@`,
`ParseIdentity` returns an `Identity` whose host equals the whole input and
whose nick and user are empty. -/
theorem C2_parseIdentity_no_separator (s : Str) (h1 : '!' ∉ s) (h2 : '@' ∉ s) :
    parseIdentity s = ⟨[], [], s⟩ := by
  unfold parseIdentity
  rw [splitOnFirst_single_none h2]

/-- Witness for C2 at the concrete input `"abc"`. -/
theorem C2_witness : parseIdentity "abc".toList = ⟨[], [], "abc".toList⟩ :=
  C2_parseIdentity_no_separator _ (by decide) (by decide)

/-! ### C6: the trailing accessor -/

/-- C6: for every event, `Trailing` returns the last argument when the
argument list is non-empty and the empty string otherwise. -/
theorem C6_eventTrailing (e : Event) :
    eventTrailing e = (e.args.getLast?).getD [] := by
  unfold eventTrailing
  cases hargs : e.args with
  | nil => rfl
  | cons a rest =>
    have hne : e.args ≠ [] := by rw [hargs]; exact List.cons_ne_nil a rest
    rw [← hargs]
    rw [List.getLast?_eq_getElem? ]
    have hlt : ¬ e.args.length < 1 := by
      rw [hargs]; simp
    rw [if_neg hlt]
    rw [List.getD_eq_getElem?_getD]

/-! ### C10: FromChannel on degenerate messages -/

/-- C10: with an empty parameter list both `FromChannel` checks return
`false`, and the sigil check also returns `false` when the first parameter is
the empty string. -/
theorem C10_fromChannel_degenerate :
    (∀ (id : Identity) (cmd : Str), eventFromChannel ⟨id, cmd, []⟩ = false) ∧
    (∀ (nick : Str) (tgs : List (Str × Str)) (src : Prefix) (cmd : Str),
      clientFromChannel nick ⟨tgs, src, cmd, []⟩ = false) ∧
    (∀ (id : Identity) (cmd : Str) (rest : List Str),
      eventFromChannel ⟨id, cmd, [] :: rest⟩ = false) := by
  refine ⟨fun id cmd => rfl, fun nick tgs src cmd => rfl, fun id cmd rest => ?_⟩
  simp [eventFromChannel]

/-! ### C3: the two FromChannel implementations agree on well-formed PRIVMSGs -/

/-- C3: on a well-formed PRIVMSG — non-empty first parameter, the client's
current nick not starting with a channel sigil, and the current nick being
the target whenever the target is not a channel — the sigil check of
`Event.FromChannel` (src/parser.go) and the nick comparison of
`Client.FromChannel` (src/client.go) return the same boolean. -/
theorem C3_fromChannel_equivalent (id : Identity) (tgs : List (Str × Str)) (src : Prefix)
    (nick : Str) (ps : List Str)
    (hne : ps ≠ [])
    (hfst : ps.getD 0 [] ≠ [])
    (hdm : ((ps.getD 0 []).getD 0 ' ' ≠ '#' ∧ (ps.getD 0 []).getD 0 ' ' ≠ '&') →
      ps.getD 0 [] = nick)
    (hnick : nick.head? ≠ some '#' ∧ nick.head? ≠ some '&') :
    eventFromChannel ⟨id, "PRIVMSG".toList, ps⟩ =
      clientFromChannel nick ⟨tgs, src, "PRIVMSG".toList, ps⟩ := by
  cases ps with
  | nil => exact absurd rfl hne
  | cons a rest =>
    simp only [List.getD_cons_zero] at hfst hdm
    cases a with
    | nil => exact absurd rfl hfst
    | cons c tl =>
      simp only [List.getD_cons_zero] at hdm
      by_cases hc : c = '#' ∨ c = '&'
      · have hnetarget : (c :: tl) ≠ nick := by
          intro heq
          rcases hc with hc | hc
          · exact hnick.1 (by rw [← heq, hc]; rfl)
          · exact hnick.2 (by rw [← heq, hc]; rfl)
        simp [eventFromChannel, clientFromChannel, hc, bne_iff_ne, hnetarget]
      · push_neg at hc
        have htarget := hdm ⟨hc.1, hc.2⟩
        subst htarget
        simp [eventFromChannel, clientFromChannel, hc.1, hc.2]

/-- Witness for C3 at a concrete channel-targeted PRIVMSG. -/
theorem C3_witness :
    eventFromChannel ⟨emptyIdentity, "PRIVMSG".toList, ["#chan".toList, "hi".toList]⟩ =
      clientFromChannel "me".toList
        ⟨[], ⟨[], [], []⟩, "PRIVMSG".toList, ["#chan".toList, "hi".toList]⟩ :=
  C3_fromChannel_equivalent _ _ _ _ _ (by decide) (by decide) (by decide) (by decide)

/-! ### C4: the PRIVMSG→CTCP pre-dispatch filter -/

/-- C4: an incoming PRIVMSG is rewritten to `CTCP` with the `0x01` framing
bytes stripped from the trailing param exactly when the trailing param is at
least 2 bytes long and both its first and last byte are `0x01`; otherwise —
in particular when the trailing param starts with `0x01` but does not end
with it — the message is left unchanged. -/
theorem C4_privmsg_ctcp_filter (m : Message) (hcmd : m.command = "PRIVMSG".toList) :
    (2 ≤ (messageTrailing m).length →
      (messageTrailing m).head? = some ctcpDelim →
      (messageTrailing m).getLast? = some ctcpDelim →
      privmsgFilter m = { m with
        command := "CTCP".toList
        params := m.params.dropLast ++ [((messageTrailing m).drop 1).dropLast] }) ∧
    (¬ (2 ≤ (messageTrailing m).length ∧ (messageTrailing m).head? = some ctcpDelim ∧
        (messageTrailing m).getLast? = some ctcpDelim) →
      privmsgFilter m = m) := by
  constructor
  · intro hlen hhead hlast
    have h0 : 0 < (messageTrailing m).length - 1 := by omega
    have hh : (messageTrailing m).getD 0 ' ' = ctcpDelim := by
      rw [List.getD_eq_getElem?_getD, ← List.head?_eq_getElem?, hhead]; rfl
    have hl : (messageTrailing m).getD ((messageTrailing m).length - 1) ' ' = ctcpDelim := by
      rw [List.getD_eq_getElem?_getD, ← List.getLast?_eq_getElem?, hlast]; rfl
    simp only [privmsgFilter]
    rw [if_pos ⟨h0, hh, hl⟩]
    have : ((messageTrailing m).drop 1).take ((messageTrailing m).length - 1 - 1) =
        ((messageTrailing m).drop 1).dropLast := by
      rw [List.dropLast_eq_take, List.length_drop]
    rw [this]
  · intro hnot
    simp only [privmsgFilter]
    rw [if_neg]
    rintro ⟨g1, g2, g3⟩
    apply hnot
    have hlen : 2 ≤ (messageTrailing m).length := by omega
    have hpos : 0 < (messageTrailing m).length := by omega
    refine ⟨hlen, ?_, ?_⟩
    · rw [List.head?_eq_getElem?, List.getElem?_eq_getElem hpos]
      rw [List.getD_eq_getElem?_getD, List.getElem?_eq_getElem hpos] at g2
      simp at g2 ⊢
      exact g2
    · have hlt : (messageTrailing m).length - 1 < (messageTrailing m).length := by omega
      rw [List.getLast?_eq_getElem?, List.getElem?_eq_getElem hlt]
      rw [List.getD_eq_getElem?_getD, List.getElem?_eq_getElem hlt] at g3
      simp at g3 ⊢
      exact g3

/-- Witness for C4 at `PRIVMSG you :\x01VERSION\x01` (Scenario E). -/
theorem C4_witness :
    privmsgFilter ⟨[], ⟨[], [], []⟩, "PRIVMSG".toList,
        ["you".toList, ctcpDelim :: ("VERSION".toList ++ [ctcpDelim])]⟩ =
      ⟨[], ⟨[], [], []⟩, "CTCP".toList, ["you".toList, "VERSION".toList]⟩ := by
  have h := C4_privmsg_ctcp_filter ⟨[], ⟨[], [], []⟩, "PRIVMSG".toList,
    ["you".toList, ctcpDelim :: ("VERSION".toList ++ [ctcpDelim])]⟩ rfl
  have h2 := h.1 (by decide) (by decide) (by decide)
  rw [h2]
  decide

/-! ### Lemmas about the tracker's channel map -/

theorem insertCh_self (m : ChMap) (k : Str) (v : ChannelState) :
    insertCh m k v k = some v := by
  unfold insertCh
  rw [if_pos rfl]

theorem insertCh_ne (m : ChMap) (k : Str) (v : ChannelState) (k' : Str) (h : k' ≠ k) :
    insertCh m k v k' = m k' := by
  unfold insertCh
  rw [if_neg h]

theorem deleteCh_self (m : ChMap) (k : Str) : deleteCh m k k = none := by
  unfold deleteCh
  rw [if_pos rfl]

theorem deleteCh_ne (m : ChMap) (k k' : Str) (h : k' ≠ k) : deleteCh m k k' = m k' := by
  unfold deleteCh
  rw [if_neg h]

theorem mem_userAdd_self (l : List Str) (u : Str) : u ∈ userAdd l u := by
  unfold userAdd
  by_cases h : l.contains u
  · rw [if_pos h]
    simpa using h
  · rw [if_neg h]
    simp

/-! ### C7: JOIN handling in the membership tracker -/

/-- C7: a well-formed JOIN from another user for a channel with no existing
state fails with the unknown-channel error and leaves the channel map
unchanged; a JOIN from the current nick creates the state if absent and adds
the self nick to its user set. -/
theorem C7_tracker_join (t : Tracker) (msg : Message)
    (hcmd : msg.command = "JOIN".toList) (hlen : msg.params.length = 1) :
    (msg.source.name ≠ t.currentNick →
      t.channels (messageTrailing msg) = none →
      handleJoin t msg = (t, some "received JOIN message for unknown channel".toList)) ∧
    (msg.source.name = t.currentNick →
      (handleJoin t msg).2 = none ∧
      ∃ st, (handleJoin t msg).1.channels (messageTrailing msg) = some st ∧
        t.currentNick ∈ st.users) := by
  constructor
  · intro hne hnone
    simp only [handleJoin, hlen]
    rw [if_neg (by simp)]
    rw [hnone]
    simp only []
    rw [if_pos hne]
  · intro heq
    simp only [handleJoin, hlen]
    rw [if_neg (by simp)]
    cases hch : t.channels (messageTrailing msg) with
    | none =>
      simp only [hch]
      rw [if_neg (by simp [heq])]
      refine ⟨rfl, ⟨messageTrailing msg, [], userAdd [] msg.source.name⟩, ?_, ?_⟩
      · exact insertCh_self t.channels (messageTrailing msg) _
      · rw [← heq]
        exact mem_userAdd_self [] msg.source.name
    | some st =>
      simp only [hch]
      refine ⟨by trivial, { st with users := userAdd st.users msg.source.name }, ?_, ?_⟩
      · exact insertCh_self t.channels (messageTrailing msg) _
      · rw [← heq]
        exact mem_userAdd_self st.users msg.source.name

/-- Witness for C7: the client joins `#ch` itself; the state is created and
contains the self nick. -/
theorem C7_witness :
    (handleJoin ⟨fun _ => none, "me".toList⟩
        ⟨[], ⟨"me".toList, [], []⟩, "JOIN".toList, ["#ch".toList]⟩).2 = none ∧
    ∃ st, (handleJoin ⟨fun _ => none, "me".toList⟩
        ⟨[], ⟨"me".toList, [], []⟩, "JOIN".toList, ["#ch".toList]⟩).1.channels
        (messageTrailing ⟨[], ⟨"me".toList, [], []⟩, "JOIN".toList, ["#ch".toList]⟩) = some st ∧
      "me".toList ∈ st.users :=
  (C7_tracker_join ⟨fun _ => none, "me".toList⟩
    ⟨[], ⟨"me".toList, [], []⟩, "JOIN".toList, ["#ch".toList]⟩ rfl rfl).2 rfl

/-! ### C8: PART and KICK handling in the membership tracker -/

/-- C8 counterexample: the spec's own KICK form `KICK <channel> <target>`
carries two parameters, but `handleKick` demands exactly three
(channel, victim, reason): on a tracked channel `#ch` whose user set holds
`me` and `bob`, the two-parameter message `KICK #ch bob` is rejected as
malformed and `bob` is NOT removed — the channel state is returned
unchanged, refuting the claim for this KICK message it covers. -/
theorem C8_counterexample :
    (handleKick
        ⟨fun k => if k = "#ch".toList
            then some ⟨"#ch".toList, [], ["me".toList, "bob".toList]⟩ else none,
          "me".toList⟩
        ⟨[], ⟨"op".toList, [], []⟩, "KICK".toList, ["#ch".toList, "bob".toList]⟩).2 =
      some "malformed KICK message".toList ∧
    (handleKick
        ⟨fun k => if k = "#ch".toList
            then some ⟨"#ch".toList, [], ["me".toList, "bob".toList]⟩ else none,
          "me".toList⟩
        ⟨[], ⟨"op".toList, [], []⟩, "KICK".toList, ["#ch".toList, "bob".toList]⟩).1.channels
      ("#ch".toList) =
      some ⟨"#ch".toList, [], ["me".toList, "bob".toList]⟩ :=
  ⟨rfl, rfl⟩

/-- C8 (amended): on a tracked channel, a PART (any parameter count ≥ 1) and
a KICK with exactly three parameters (channel, victim, reason — the victim
taken from `params[1]`) remove the whole `ChannelState` when the departing
user is the current nick and otherwise remove exactly that user from the
channel's user set; in both cases every other channel's state is unchanged.
A KICK whose parameter count differs from three — including the two-parameter
`KICK <channel> <target>` form — is rejected as malformed and leaves the
tracker untouched. -/
theorem C8_tracker_part_kick (t : Tracker) (msg : Message) (st : ChannelState) :
    (msg.command = "PART".toList → 1 ≤ msg.params.length →
      t.channels (msg.params.getD 0 []) = some st →
      ((msg.source.name = t.currentNick →
          (handlePart t msg).2 = none ∧
          (handlePart t msg).1.channels (msg.params.getD 0 []) = none ∧
          ∀ ch, ch ≠ msg.params.getD 0 [] →
            (handlePart t msg).1.channels ch = t.channels ch) ∧
        (msg.source.name ≠ t.currentNick →
          (handlePart t msg).2 = none ∧
          (handlePart t msg).1.channels (msg.params.getD 0 []) =
            some { st with users := userDel st.users msg.source.name } ∧
          ∀ ch, ch ≠ msg.params.getD 0 [] →
            (handlePart t msg).1.channels ch = t.channels ch))) ∧
    (msg.command = "KICK".toList → msg.params.length = 3 →
      t.channels (msg.params.getD 0 []) = some st →
      ((msg.params.getD 1 [] = t.currentNick →
          (handleKick t msg).2 = none ∧
          (handleKick t msg).1.channels (msg.params.getD 0 []) = none ∧
          ∀ ch, ch ≠ msg.params.getD 0 [] →
            (handleKick t msg).1.channels ch = t.channels ch) ∧
        (msg.params.getD 1 [] ≠ t.currentNick →
          (handleKick t msg).2 = none ∧
          (handleKick t msg).1.channels (msg.params.getD 0 []) =
            some { st with users := userDel st.users (msg.params.getD 1 []) } ∧
          ∀ ch, ch ≠ msg.params.getD 0 [] →
            (handleKick t msg).1.channels ch = t.channels ch))) ∧
    (msg.command = "KICK".toList → msg.params.length ≠ 3 →
      handleKick t msg = (t, some "malformed KICK message".toList)) := by
  refine ⟨?_, ?_, ?_⟩
  · intro hcmd hlen htr
    have hguard : ¬ msg.params.length < 1 := by omega
    constructor
    · intro heq
      simp only [handlePart]
      rw [if_neg hguard, htr]
      simp only []
      rw [if_pos heq]
      exact ⟨rfl, deleteCh_self t.channels _, fun ch hch => deleteCh_ne t.channels _ ch hch⟩
    · intro hne
      simp only [handlePart]
      rw [if_neg hguard, htr]
      simp only []
      rw [if_neg hne]
      exact ⟨rfl, insertCh_self t.channels _ _, fun ch hch => insertCh_ne t.channels _ _ ch hch⟩
  · intro hcmd hlen htr
    have hguard : ¬ msg.params.length ≠ 3 := by omega
    constructor
    · intro heq
      simp only [handleKick]
      rw [if_neg hguard, htr]
      simp only []
      rw [if_pos heq]
      exact ⟨rfl, deleteCh_self t.channels _, fun ch hch => deleteCh_ne t.channels _ ch hch⟩
    · intro hne
      simp only [handleKick]
      rw [if_neg hguard, htr]
      simp only []
      rw [if_neg hne]
      exact ⟨rfl, insertCh_self t.channels _ _, fun ch hch => insertCh_ne t.channels _ _ ch hch⟩
  · intro hcmd hlen
    simp only [handleKick]
    rw [if_pos hlen]

/-- Witness for C8: `bob` parts `#ch` while the client is `me`; only `bob`
leaves the user set and an untracked channel name is unaffected. -/
theorem C8_witness :
    (handlePart
        ⟨fun k => if k = "#ch".toList
            then some ⟨"#ch".toList, [], ["me".toList, "bob".toList]⟩ else none,
          "me".toList⟩
        ⟨[], ⟨"bob".toList, [], []⟩, "PART".toList, ["#ch".toList]⟩).2 = none ∧
    (handlePart
        ⟨fun k => if k = "#ch".toList
            then some ⟨"#ch".toList, [], ["me".toList, "bob".toList]⟩ else none,
          "me".toList⟩
        ⟨[], ⟨"bob".toList, [], []⟩, "PART".toList, ["#ch".toList]⟩).1.channels
      ("#ch".toList) =
      some ⟨"#ch".toList, [],
        userDel ["me".toList, "bob".toList] "bob".toList⟩ := by
  have h := ((C8_tracker_part_kick
    ⟨fun k => if k = "#ch".toList
        then some ⟨"#ch".toList, [], ["me".toList, "bob".toList]⟩ else none,
      "me".toList⟩
    ⟨[], ⟨"bob".toList, [], []⟩, "PART".toList, ["#ch".toList]⟩
    ⟨"#ch".toList, [], ["me".toList, "bob".toList]⟩).1 rfl (by decide) (by decide)).2
    (by decide)
  exact ⟨h.1, h.2.1⟩

/-! ### C5: parse failures produce the named errors and no message -/

/-- C5: parsing an input that is empty after trimming fails with
`zeroLengthMessage`; a line whose `:`-led prefix section is never followed by
a space fails with `missingDataAfterPrefix`; a line whose section after the
prefix has no command field (here the family `":p  :t"`) fails with
`missingCommand`.  The `Except` result carries no message value in any of
these cases. -/
theorem C5_parse_errors :
    (∀ s : Str, trimSpace s = [] →
      parseMessage s = .error .zeroLengthMessage) ∧
    (∀ s : Str, (trimSpace s).head? = some ':' → ' ' ∉ trimSpace s →
      parseMessage s = .error .missingDataAfterPrefix) ∧
    (∀ p tl : Str, ' ' ∉ p → (∀ c, tl.getLast? = some c → goIsSpace c = false) →
      parseMessage (':' :: p ++ ' ' :: ' ' :: ':' :: tl) = .error .missingCommand) := by
  refine ⟨fun s h => ?_, fun s hhead hnosp => ?_, fun p tl hp htl => ?_⟩
  · simp only [parseMessage, h]
    rfl
  · have hne : trimSpace s ≠ [] := by
      intro hx
      rw [hx] at hhead
      exact Option.noConfusion hhead
    simp only [parseMessage]
    rw [if_neg (by simpa using hne)]
    rw [if_neg (by rw [hhead]; decide)]
    simp only [parseMessageRest]
    rw [if_pos hhead]
    rw [splitOnFirst_single_none hnosp]
  · have hxlast : ∀ c, (':' :: p ++ ' ' :: ' ' :: ':' :: tl).getLast? = some c →
        goIsSpace c = false := by
      intro c hc
      cases tl with
      | nil =>
        rw [show ':' :: p ++ ' ' :: ' ' :: ':' :: ([] : Str) =
          (':' :: p ++ [' ', ' ']) ++ [':'] from by simp] at hc
        rw [List.getLast?_concat] at hc
        cases hc
        decide
      | cons a l =>
        rw [show ':' :: p ++ ' ' :: ' ' :: ':' :: (a :: l) =
          (':' :: p ++ [' ', ' ', ':']) ++ (a :: l) from by simp] at hc
        rcases hlast : (a :: l).getLast? with _ | y
        · exact absurd hlast (by simp)
        · rw [List.getLast?_append, hlast] at hc
          simp only [Option.or_some, Option.some.injEq] at hc
          rw [← hc]
          exact htl y hlast
    have hx : trimSpace (':' :: p ++ ' ' :: ' ' :: ':' :: tl) =
        ':' :: p ++ ' ' :: ' ' :: ':' :: tl := by
      refine trimSpace_eq_self (fun c hc => ?_) hxlast
      simp only [List.cons_append, List.head?_cons, Option.some.injEq] at hc
      rw [← hc]
      decide
    simp only [parseMessage, hx]
    rw [if_neg (by simp)]
    rw [if_neg (by simp)]
    simp only [parseMessageRest]
    rw [if_pos (by simp)]
    rw [show (':' :: p) ++ ' ' :: ' ' :: ':' :: tl = (':' :: p) ++ ' ' :: (' ' :: ':' :: tl)
      from rfl]
    rw [splitOnFirst_single_append (' ' :: ':' :: tl)
      (by simp only [List.mem_cons, not_or]; exact ⟨by decide, hp⟩)]
    simp only [parseMessageCmd]
    have hsp : splitOnFirst [' ', ':'] (' ' :: ':' :: tl) = some ([], tl) := by
      simp [splitOnFirst, List.isPrefixOf]
    rw [hsp]
    rfl

/-- Witness for C5 at the inputs `""`, `":asdf"` and `":p  :x"`. -/
theorem C5_witness :
    parseMessage "".toList = .error .zeroLengthMessage ∧
    parseMessage ":asdf".toList = .error .missingDataAfterPrefix ∧
    parseMessage (':' :: "p".toList ++ ' ' :: ' ' :: ':' :: "x".toList) =
      .error .missingCommand :=
  ⟨C5_parse_errors.1 "".toList (by decide),
   C5_parse_errors.2.1 ":asdf".toList (by decide) (by decide),
   C5_parse_errors.2.2 "p".toList "x".toList (by decide) (by decide)⟩

/-! ### Lemmas for the mask-to-regex claim -/

theorem maskSpecials_contains_iff (c : Char) :
    maskSpecials.contains c = true ↔ c = '\\' ∨ c = '?' ∨ c = '*' := by
  simp [maskSpecials]

theorem maskSpecials_contains_false_iff (c : Char) :
    maskSpecials.contains c = false ↔ c ≠ '\\' ∧ c ≠ '?' ∧ c ≠ '*' := by
  rw [← Bool.not_eq_true, maskSpecials_contains_iff]
  tauto

theorem quoteMeta_append (a b : Str) : quoteMeta (a ++ b) = quoteMeta a ++ quoteMeta b := by
  unfold quoteMeta
  rw [List.map_append, List.flatten_append]

theorem quoteMeta_single (c : Char) : quoteMeta [c] = quoteMetaChar c := by
  unfold quoteMeta
  simp

theorem renderAtoms_append (a b : List MaskAtom) :
    renderAtoms (a ++ b) = renderAtoms a ++ renderAtoms b := by
  unfold renderAtoms
  rw [List.map_append, List.flatten_append]

theorem renderAtoms_map_lit (u : Str) : renderAtoms (u.map .lit) = quoteMeta u := by
  unfold renderAtoms quoteMeta
  rw [List.map_map]
  rfl

theorem findSpecial_none_chars {u : Str} (h : findSpecial u = none) :
    ∀ c ∈ u, maskSpecials.contains c = false := by
  induction u with
  | nil => intro c hc; exact absurd hc (List.not_mem_nil c)
  | cons d rest ih =>
    intro c hc
    by_cases hd : maskSpecials.contains d
    · rw [findSpecial, if_pos hd] at h
      exact Option.noConfusion h
    · rw [findSpecial, if_neg hd] at h
      rcases List.mem_cons.mp hc with hc | hc
      · subst hc
        exact Bool.not_eq_true _ ▸ (by simpa using hd)
      · cases hfs : findSpecial rest with
        | none => exact ih hfs c hc
        | some w =>
          obtain ⟨b', x', a'⟩ := w
          rw [hfs] at h
          exact Option.noConfusion h

theorem findSpecial_some_decomp {u b : Str} {x : Char} {a : Str}
    (h : findSpecial u = some (b, x, a)) :
    u = b ++ x :: a ∧ (∀ c ∈ b, maskSpecials.contains c = false) ∧
      maskSpecials.contains x = true := by
  induction u generalizing b with
  | nil => exact Option.noConfusion h
  | cons d rest ih =>
    by_cases hd : maskSpecials.contains d
    · rw [findSpecial, if_pos hd] at h
      injection h with h
      rw [Prod.ext_iff] at h
      obtain ⟨hb, h⟩ := h
      rw [Prod.ext_iff] at h
      obtain ⟨hx, ha⟩ := h
      simp only at hb hx ha
      subst hb; subst hx; subst ha
      exact ⟨rfl, fun c hc => absurd hc (List.not_mem_nil c), hd⟩
    · rw [findSpecial, if_neg hd] at h
      cases hfs : findSpecial rest with
      | none => rw [hfs] at h; exact Option.noConfusion h
      | some w =>
        obtain ⟨b', x', a'⟩ := w
        rw [hfs] at h
        injection h with h
        rw [Prod.ext_iff] at h
        obtain ⟨hb, h⟩ := h
        rw [Prod.ext_iff] at h
        obtain ⟨hx, ha⟩ := h
        simp only at hb hx ha
        subst hb; subst hx; subst ha
        obtain ⟨hu, hbf, hxs⟩ := ih hfs
        refine ⟨by rw [List.cons_append, ← hu], ?_, hxs⟩
        intro c hc
        rcases List.mem_cons.mp hc with hc | hc
        · subst hc
          simpa using hd
        · exact hbf c hc

theorem maskAtoms_cons (c : Char) (rest : Str) :
    maskAtoms (c :: rest) =
      if c = '\\' then
        (match rest with
         | [] => [MaskAtom.lit '\\']
         | d :: rest2 =>
           if maskSpecials.contains d then .lit d :: maskAtoms rest2
           else .lit '\\' :: maskAtoms (d :: rest2))
      else if c = '*' then .anySeq :: maskAtoms rest
      else if c = '?' then .anyChar :: maskAtoms rest
      else .lit c :: maskAtoms rest := by
  rw [maskAtoms.eq_def]
  split
  · next heq => exact List.noConfusion heq
  · next c' rest' heq =>
    injection heq with h1 h2
    subst h1
    subst h2
    rfl

theorem mtrAux_eq_none {u : Str} (b : Bool) (hfs : findSpecial u = none) :
    mtrAux b u = (if b then quoteMeta ['\\'] else []) ++ quoteMeta u := by
  rw [mtrAux.eq_def]
  split
  · rfl
  · next before x after heq =>
    rw [hfs] at heq
    exact Option.noConfusion heq

theorem mtrAux_eq_some {u before : Str} {x : Char} {after : Str} (b : Bool)
    (hfs : findSpecial u = some (before, x, after)) :
    mtrAux b u =
      if b ∧ before = [] then quoteMeta [x] ++ mtrAux false after
      else
        (if b then quoteMeta ['\\'] else []) ++ quoteMeta before ++
        (if x = '\\' then mtrAux true after
         else if x = '?' then '.' :: mtrAux false after
         else '.' :: '*' :: mtrAux false after) := by
  rw [mtrAux.eq_def]
  split
  · next heq =>
    rw [hfs] at heq
    exact Option.noConfusion heq
  · next b' x' a' heq =>
    rw [hfs] at heq
    injection heq with heq
    rw [Prod.ext_iff] at heq
    obtain ⟨hb, heq⟩ := heq
    rw [Prod.ext_iff] at heq
    obtain ⟨hx, ha⟩ := heq
    simp only at hb hx ha
    subst hb; subst hx; subst ha
    rfl

theorem maskAtoms_append_nospecial {b : Str} (v : Str)
    (h : ∀ c ∈ b, maskSpecials.contains c = false) :
    maskAtoms (b ++ v) = b.map .lit ++ maskAtoms v := by
  induction b with
  | nil => simp
  | cons c rest ih =>
    have hc := h c (List.mem_cons_self c rest)
    obtain ⟨h1, h2, h3⟩ := (maskSpecials_contains_false_iff c).mp hc
    rw [List.cons_append, maskAtoms_cons, if_neg h1, if_neg h3, if_neg h2]
    rw [ih (fun d hd => h d (List.mem_cons_of_mem c hd))]
    rfl

theorem mtrAux_true_head_special (c : Char) (rest : Str)
    (h : maskSpecials.contains c = true) :
    mtrAux true (c :: rest) = quoteMeta [c] ++ mtrAux false rest := by
  have hfs : findSpecial (c :: rest) = some ([], c, rest) := by
    rw [findSpecial, if_pos h]
  rw [mtrAux_eq_some true hfs, if_pos ⟨rfl, rfl⟩]

theorem mtrAux_true_head_nonspecial (u : Str)
    (h : ∀ c, u.head? = some c → maskSpecials.contains c = false) :
    mtrAux true u = quoteMeta ['\\'] ++ mtrAux false u := by
  cases hfs : findSpecial u with
  | none =>
    rw [mtrAux_eq_none true hfs, mtrAux_eq_none false hfs]
    simp
  | some w =>
    obtain ⟨before, x, after⟩ := w
    obtain ⟨hu, hbf, hxs⟩ := findSpecial_some_decomp hfs
    have hbne : before ≠ [] := by
      intro hb
      subst hb
      rw [List.nil_append] at hu
      have := h x (by rw [hu]; rfl)
      rw [hxs] at this
      exact Bool.noConfusion this
    rw [mtrAux_eq_some true hfs, mtrAux_eq_some false hfs]
    rw [if_neg (fun hand => hbne hand.2),
      if_neg (fun hand : (false = true) ∧ before = [] => Bool.noConfusion hand.1)]
    simp

theorem maskAtoms_backslash_nil : maskAtoms ['\\'] = [.lit '\\'] := by
  rw [maskAtoms_cons, if_pos rfl]

theorem maskAtoms_backslash_cons (d : Char) (rest2 : Str) :
    maskAtoms ('\\' :: d :: rest2) =
      if maskSpecials.contains d then .lit d :: maskAtoms rest2
      else .lit '\\' :: maskAtoms (d :: rest2) := by
  rw [maskAtoms_cons, if_pos rfl]

theorem maskAtoms_star (rest : Str) : maskAtoms ('*' :: rest) = .anySeq :: maskAtoms rest := by
  rw [maskAtoms_cons, if_neg (by decide), if_pos rfl]

theorem maskAtoms_qmark (rest : Str) : maskAtoms ('?' :: rest) = .anyChar :: maskAtoms rest := by
  rw [maskAtoms_cons, if_neg (by decide), if_neg (by decide), if_pos rfl]

theorem maskAtoms_other (c : Char) (rest : Str) (h1 : c ≠ '\\') (h2 : c ≠ '*')
    (h3 : c ≠ '?') : maskAtoms (c :: rest) = .lit c :: maskAtoms rest := by
  rw [maskAtoms_cons, if_neg h1, if_neg h2, if_neg h3]

theorem maskAtoms_nil : maskAtoms [] = [] := by
  rw [maskAtoms.eq_def]

theorem maskAtoms_nospecial {u : Str} (h : ∀ c ∈ u, maskSpecials.contains c = false) :
    maskAtoms u = u.map .lit := by
  have h2 := maskAtoms_append_nospecial (b := u) [] h
  rw [List.append_nil, maskAtoms_nil, List.append_nil] at h2
  exact h2

/-- Part A of the mask claim: the loop emits exactly the spec's per-character
production table. -/
theorem mtrAux_false_renderAtoms (u : Str) :
    mtrAux false u = renderAtoms (maskAtoms u) := by
  have H : ∀ n (u : Str), u.length ≤ n → mtrAux false u = renderAtoms (maskAtoms u) := by
    intro n
    induction n with
    | zero =>
      intro u hle
      have hu : u = [] := List.eq_nil_of_length_eq_zero (Nat.le_zero.mp hle)
      subst hu
      rw [mtrAux_eq_none (u := []) false rfl]
      rfl
    | succ n ih =>
      intro u hle
      cases hfs : findSpecial u with
      | none =>
        rw [mtrAux_eq_none false hfs]
        rw [maskAtoms_nospecial (findSpecial_none_chars hfs), renderAtoms_map_lit]
        simp
      | some w =>
        obtain ⟨before, x, after⟩ := w
        obtain ⟨hu, hbf, hxs⟩ := findSpecial_some_decomp hfs
        have hlen : before.length + (after.length + 1) ≤ n + 1 := by
          have : u.length = before.length + (after.length + 1) := by
            rw [hu]
            simp
          omega
        rw [mtrAux_eq_some false hfs,
          if_neg (fun hand : (false = true) ∧ before = [] => Bool.noConfusion hand.1)]
        rw [hu, maskAtoms_append_nospecial (x :: after) hbf, renderAtoms_append,
          renderAtoms_map_lit]
        simp only [if_neg (Bool.noConfusion : ¬ (false = true)), List.nil_append]
        congr 1
        rcases (maskSpecials_contains_iff x).mp hxs with hx | hx | hx
        · subst hx
          rw [if_pos rfl]
          cases after with
          | nil =>
            rw [mtrAux_eq_none (u := []) true rfl, maskAtoms_backslash_nil]
            rfl
          | cons d rest2 =>
            rw [maskAtoms_backslash_cons]
            by_cases hd : maskSpecials.contains d
            · rw [if_pos hd, mtrAux_true_head_special d rest2 hd]
              rw [ih rest2 (by simp at hlen ⊢; omega)]
              rw [quoteMeta_single]
              rfl
            · rw [if_neg hd,
                mtrAux_true_head_nonspecial (d :: rest2)
                  (fun c hc => by
                    rw [List.head?_cons, Option.some.injEq] at hc
                    subst hc
                    simpa using hd)]
              rw [ih (d :: rest2) (by simp at hlen ⊢; omega)]
              have : quoteMeta ['\\'] = atomRegex (.lit '\\') := by decide
              rw [this]
              rfl
        · subst hx
          rw [if_neg (by decide), if_pos rfl, maskAtoms_qmark]
          rw [ih after (by omega)]
          rfl
        · subst hx
          rw [if_neg (by decide), if_neg (by decide), maskAtoms_star]
          rw [ih after (by omega)]
          rfl
  exact H u.length u (Nat.le_refl _)

theorem maskMatch_bs_single (s : Str) : maskMatch ['\\'] s = (s == ['\\']) := by
  cases s with
  | nil => rw [maskMatch.eq_2, if_pos rfl]
  | cons x s' => rw [maskMatch.eq_3, if_pos rfl]

theorem maskMatch_star (p s : Str) :
    maskMatch ('*' :: p) s =
      (maskMatch p s ||
        (match s with | [] => false | _ :: s' => maskMatch ('*' :: p) s')) := by
  cases p with
  | nil =>
    cases s with
    | nil => rw [maskMatch.eq_2]; simp
    | cons x s' => rw [maskMatch.eq_3]; simp
  | cons d p2 =>
    cases s with
    | nil => rw [maskMatch.eq_4]; simp
    | cons x s' => rw [maskMatch.eq_5]; simp

theorem maskMatch_qmark (p s : Str) :
    maskMatch ('?' :: p) s =
      (match s with | [] => false | _ :: s' => maskMatch p s') := by
  cases p with
  | nil =>
    cases s with
    | nil => rw [maskMatch.eq_2]; simp
    | cons x s' => rw [maskMatch.eq_3]; simp
  | cons d p2 =>
    cases s with
    | nil => rw [maskMatch.eq_4]; simp
    | cons x s' => rw [maskMatch.eq_5]; simp

theorem maskMatch_other (c : Char) (p s : Str) (h1 : c ≠ '\\') (h2 : c ≠ '*')
    (h3 : c ≠ '?') :
    maskMatch (c :: p) s =
      (match s with | [] => false | x :: s' => c == x && maskMatch p s') := by
  cases p with
  | nil =>
    cases s with
    | nil => rw [maskMatch.eq_2, if_neg h1, if_neg h2, if_neg h3]
    | cons x s' => rw [maskMatch.eq_3, if_neg h1, if_neg h2, if_neg h3]
  | cons d p2 =>
    cases s with
    | nil => rw [maskMatch.eq_4, if_neg h1, if_neg h2, if_neg h3]
    | cons x s' => rw [maskMatch.eq_5, if_neg h1, if_neg h2, if_neg h3]

theorem cons_beq_backslash (x : Char) (s' : Str) :
    ((x :: s' : Str) == ['\\']) = ('\\' == x && s'.isEmpty) := by
  by_cases hx : x = '\\'
  · subst hx
    cases s' with
    | nil => decide
    | cons y t => simp [instBEqOfDecidableEq]
  · have h1 : ((x :: s' : Str) == ['\\']) = false := by
      simp [instBEqOfDecidableEq]
      intro h
      exact absurd h hx
    have h2 : ('\\' == x) = false := by
      simp [instBEqOfDecidableEq]
      exact fun h => hx h.symm
    rw [h1, h2, Bool.false_and]

/-- Part B of the mask claim: the emitted regex fragment matches exactly the
strings the IRC wildcard mask matches. -/
theorem maskMatch_eq_atomsMatch (p s : Str) :
    maskMatch p s = atomsMatch (maskAtoms p) s := by
  have H : ∀ n (p s : Str), p.length + s.length ≤ n →
      maskMatch p s = atomsMatch (maskAtoms p) s := by
    intro n
    induction n with
    | zero =>
      intro p s hle
      have hp : p = [] := List.eq_nil_of_length_eq_zero (by omega)
      have hs : s = [] := List.eq_nil_of_length_eq_zero (by omega)
      subst hp; subst hs
      rw [maskMatch.eq_1, maskAtoms_nil, atomsMatch.eq_1]
    | succ n ih =>
      intro p s hle
      cases p with
      | nil => rw [maskMatch.eq_1, maskAtoms_nil, atomsMatch.eq_1]
      | cons c p' =>
        by_cases hbs : c = '\\'
        · subst hbs
          cases p' with
          | nil =>
            rw [maskMatch_bs_single, maskAtoms_backslash_nil]
            cases s with
            | nil => rw [atomsMatch.eq_2]; decide
            | cons x s' =>
              rw [atomsMatch.eq_3, atomsMatch.eq_1, cons_beq_backslash]
          | cons d p2 =>
            by_cases hd : maskSpecials.contains d
            · rw [maskAtoms_backslash_cons, if_pos hd]
              cases s with
              | nil => rw [maskMatch.eq_4, if_pos rfl, if_pos hd, atomsMatch.eq_2]
              | cons x s' =>
                rw [maskMatch.eq_5, if_pos rfl, if_pos hd, atomsMatch.eq_3]
                rw [ih p2 s' (by simp at hle ⊢; omega)]
            · rw [maskAtoms_backslash_cons, if_neg hd]
              cases s with
              | nil => rw [maskMatch.eq_4, if_pos rfl, if_neg hd, atomsMatch.eq_2]
              | cons x s' =>
                rw [maskMatch.eq_5, if_pos rfl, if_neg hd, atomsMatch.eq_3]
                rw [ih (d :: p2) s' (by simp at hle ⊢; omega)]
        · by_cases hst : c = '*'
          · subst hst
            rw [maskMatch_star, maskAtoms_star]
            cases s with
            | nil =>
              rw [atomsMatch.eq_6, ih p' [] (by simp at hle ⊢; omega)]
            | cons x s' =>
              rw [atomsMatch.eq_7]
              rw [ih p' (x :: s') (by simp at hle ⊢; omega)]
              have h2 := ih ('*' :: p') s' (by simp at hle ⊢; omega)
              rw [maskAtoms_star] at h2
              show (atomsMatch (maskAtoms p') (x :: s') || maskMatch ('*' :: p') s') =
                (atomsMatch (maskAtoms p') (x :: s') ||
                  atomsMatch (MaskAtom.anySeq :: maskAtoms p') s')
              rw [h2]
          · by_cases hq : c = '?'
            · subst hq
              rw [maskMatch_qmark, maskAtoms_qmark]
              cases s with
              | nil => rw [atomsMatch.eq_4]
              | cons x s' =>
                rw [atomsMatch.eq_5]
                show maskMatch p' s' = atomsMatch (maskAtoms p') s'
                exact ih p' s' (by simp at hle ⊢; omega)
            · rw [maskMatch_other c p' s hbs hst hq, maskAtoms_other c p' hbs hst hq]
              cases s with
              | nil => rw [atomsMatch.eq_2]
              | cons x s' =>
                rw [atomsMatch.eq_3]
                show (c == x && maskMatch p' s') = (c == x && atomsMatch (maskAtoms p') s')
                rw [ih p' s' (by simp at hle ⊢; omega)]
  exact H (p.length + s.length) p s (Nat.le_refl _)

/-! ### C9: mask-to-regex conversion -/

/-- C9: `MaskToRegex` emits an anchored regex whose body is exactly the
spec's per-character production (`maskAtoms` rendered by `atomRegex`:
unescaped `*` ↦ `.*`, unescaped `?` ↦ `.`, `\\`/`\?`/`\*` ↦ the quoted
literal, backslash before any other byte ↦ quoted backslash then that byte,
all other bytes regex-quoted), and consequently the produced regex — under
the standard semantics of that fragment, `atomsMatch` — matches exactly the
strings the IRC wildcard mask matches. -/
theorem C9_maskToRegex_spec (mask : Str) :
    maskToRegex mask = '^' :: (renderAtoms (maskAtoms mask) ++ ['$']) ∧
    ∀ s : Str, atomsMatch (maskAtoms mask) s = maskMatch mask s := by
  constructor
  · unfold maskToRegex
    rw [mtrAux_false_renderAtoms]
  · intro s
    rw [maskMatch_eq_atomsMatch]

/-! ### Lemmas for the round-trip claim -/

theorem splitChar_no_sep {c : Char} {w : Str} (h : c ∉ w) : splitChar c w = [w] := by
  induction w with
  | nil => rfl
  | cons x rest ih =>
    simp only [List.mem_cons, not_or] at h
    rw [splitChar, if_neg (fun hx => h.1 hx.symm), ih h.2]

theorem splitChar_word_append {c : Char} {w : Str} (rest : Str) (h : c ∉ w) :
    splitChar c (w ++ c :: rest) = w :: splitChar c rest := by
  induction w with
  | nil =>
    rw [List.nil_append, splitChar, if_pos rfl]
  | cons x wr ih =>
    simp only [List.mem_cons, not_or] at h
    rw [List.cons_append, splitChar, if_neg (fun hx => h.1 hx.symm), ih h.2]

theorem fieldsSpace_single {w : Str} (h1 : w ≠ []) (h2 : ' ' ∉ w) :
    fieldsSpace w = [w] := by
  unfold fieldsSpace
  rw [splitChar_no_sep h2]
  simp [h1]

theorem intercalate_single (w : Str) : List.intercalate [' '] [w] = w := by
  simp [List.intercalate]

theorem intercalate_cons₂ (w x : Str) (t : List Str) :
    List.intercalate [' '] (w :: x :: t) = w ++ ' ' :: List.intercalate [' '] (x :: t) := by
  simp only [List.intercalate, List.intersperse]
  rfl

theorem fieldsSpace_intercalate {ws : List Str} (h : ∀ w ∈ ws, w ≠ [] ∧ ' ' ∉ w) :
    fieldsSpace (List.intercalate [' '] ws) = ws := by
  induction ws with
  | nil => rfl
  | cons w rest ih =>
    obtain ⟨hw1, hw2⟩ := h w (List.mem_cons_self w rest)
    cases rest with
    | nil =>
      rw [intercalate_single, fieldsSpace_single hw1 hw2]
    | cons x t =>
      rw [intercalate_cons₂]
      unfold fieldsSpace
      rw [splitChar_word_append _ hw2]
      rw [List.filter_cons_of_pos (by simpa using hw1)]
      have := ih (fun v hv => h v (List.mem_cons_of_mem w hv))
      unfold fieldsSpace at this
      rw [this]

theorem sp2_cons_nonspace {c : Char} (rest : Str) (h : c ≠ ' ') :
    splitOnFirst [' ', ':'] (c :: rest) =
      match splitOnFirst [' ', ':'] rest with
      | none => none
      | some (l, r) => some (c :: l, r) := by
  rw [splitOnFirst]
  rw [if_neg]
  intro hpre
  simp only [List.isPrefixOf, Bool.and_eq_true, beq_iff_eq] at hpre
  exact h hpre.1.symm

theorem sp2_word_append {w : Str} (rest : Str) (hw : ' ' ∉ w) :
    splitOnFirst [' ', ':'] (w ++ rest) =
      match splitOnFirst [' ', ':'] rest with
      | none => none
      | some (l, r) => some (w ++ l, r) := by
  induction w with
  | nil =>
    rw [List.nil_append]
    cases splitOnFirst [' ', ':'] rest with
    | none => rfl
    | some p => rfl
  | cons x wr ih =>
    simp only [List.mem_cons, not_or] at hw
    rw [List.cons_append, sp2_cons_nonspace _ (fun hx => hw.1 hx.symm)]
    rw [ih hw.2]
    cases splitOnFirst [' ', ':'] rest with
    | none => rfl
    | some p => rfl

theorem sp2_space (rest : Str) (h : rest.head? ≠ some ':') :
    splitOnFirst [' ', ':'] (' ' :: rest) =
      match splitOnFirst [' ', ':'] rest with
      | none => none
      | some (l, r) => some (' ' :: l, r) := by
  rw [splitOnFirst]
  rw [if_neg]
  intro hpre
  simp only [List.isPrefixOf, Bool.and_eq_true, beq_iff_eq] at hpre
  cases rest with
  | nil => simp [List.isPrefixOf] at hpre
  | cons y t =>
    simp only [List.isPrefixOf, Bool.and_eq_true, beq_iff_eq] at hpre
    exact h (by rw [List.head?_cons, hpre.2.1])

theorem sp2_marker (t : Str) : splitOnFirst [' ', ':'] (' ' :: ':' :: t) = some ([], t) := by
  simp [splitOnFirst, List.isPrefixOf]

theorem intercalate_head? {x : Str} (t : List Str) (hx : x ≠ []) :
    (List.intercalate [' '] (x :: t)).head? = x.head? := by
  cases t with
  | nil => rw [intercalate_single]
  | cons y r =>
    rw [intercalate_cons₂]
    cases x with
    | nil => exact absurd rfl hx
    | cons c cs => rw [List.cons_append, List.head?_cons, List.head?_cons]

theorem sp2_words_none {ws : List Str} (h : ∀ w ∈ ws, eventWordOk w) :
    splitOnFirst [' ', ':'] (List.intercalate [' '] ws) = none := by
  induction ws with
  | nil => rfl
  | cons w rest ih =>
    obtain ⟨hw1, hw2, hw3⟩ := h w (List.mem_cons_self w rest)
    cases rest with
    | nil =>
      rw [intercalate_single]
      rw [show (w : Str) = w ++ [] from (List.append_nil w).symm, sp2_word_append [] hw2]
      rfl
    | cons x t =>
      rw [intercalate_cons₂, sp2_word_append _ hw2]
      have hx1 : x ≠ [] := (h x (by simp)).1
      have hhead : (List.intercalate [' '] (x :: t)).head? ≠ some ':' := by
        rw [intercalate_head? t hx1]
        exact (h x (by simp)).2.2
      rw [sp2_space _ hhead]
      rw [ih (fun v hv => h v (List.mem_cons_of_mem w hv))]

theorem sp2_words_marker {ws : List Str} (t : Str) (h : ∀ w ∈ ws, eventWordOk w)
    (hne : ws ≠ []) :
    splitOnFirst [' ', ':'] (List.intercalate [' '] ws ++ ' ' :: ':' :: t) =
      some (List.intercalate [' '] ws, t) := by
  induction ws with
  | nil => exact absurd rfl hne
  | cons w rest ih =>
    obtain ⟨hw1, hw2, hw3⟩ := h w (List.mem_cons_self w rest)
    cases rest with
    | nil =>
      rw [intercalate_single, sp2_word_append _ hw2, sp2_marker]
      show some (w ++ [], t) = some (w, t)
      rw [List.append_nil]
    | cons x tl =>
      rw [intercalate_cons₂, List.append_assoc, List.cons_append]
      rw [sp2_word_append _ hw2]
      have hx1 : x ≠ [] := (h x (by simp)).1
      have hhead : (List.intercalate [' '] (x :: tl) ++ ' ' :: ':' :: t).head? ≠ some ':' := by
        have h1 : (List.intercalate [' '] (x :: tl)).head? = x.head? := intercalate_head? tl hx1
        cases hxx : List.intercalate [' '] (x :: tl) with
        | nil =>
          rw [hxx] at h1
          cases x with
          | nil => exact absurd rfl hx1
          | cons c cs => simp at h1
        | cons c cs =>
          rw [List.cons_append, List.head?_cons]
          rw [hxx, List.head?_cons] at h1
          rw [h1]
          exact (h x (by simp)).2.2
      rw [sp2_space _ hhead]
      rw [ih (fun v hv => h v (List.mem_cons_of_mem w hv)) (by simp)]

theorem head?_append_left {l₁ : Str} (l₂ : Str) (h : l₁ ≠ []) :
    (l₁ ++ l₂).head? = l₁.head? := by
  cases l₁ with
  | nil => exact absurd rfl h
  | cons c t => rfl

theorem getLast?_append_right (l₁ : Str) {l₂ : Str} (h : l₂ ≠ []) :
    (l₁ ++ l₂).getLast? = l₂.getLast? := by
  rw [List.getLast?_append]
  cases hl : l₂.getLast? with
  | none =>
    have h2 : l₂.getLast?.isSome := List.getLast?_isSome.mpr h
    rw [hl] at h2
    exact Bool.noConfusion h2
  | some y => rfl

theorem identityString_no_space {i : Identity} (h1 : ' ' ∉ i.nick) (h2 : ' ' ∉ i.user)
    (h3 : ' ' ∉ i.host) : ' ' ∉ identityString i := by
  unfold identityString
  by_cases hn : i.nick ≠ []
  · rw [if_pos hn]
    intro hmem
    rcases List.mem_append.mp hmem with hm | hm
    · rcases List.mem_append.mp hm with hm2 | hm2
      · exact h1 hm2
      · rcases List.mem_cons.mp hm2 with hm3 | hm3
        · exact absurd hm3 (by decide)
        · exact h2 hm3
    · rcases List.mem_cons.mp hm with hm2 | hm2
      · exact absurd hm2 (by decide)
      · exact h3 hm2
  · rw [if_neg hn]
    by_cases hu : i.user ≠ []
    · rw [if_pos hu]
      intro hmem
      rcases List.mem_append.mp hmem with hm | hm
      · exact h2 hm
      · rcases List.mem_cons.mp hm with hm | hm
        · exact absurd hm (by decide)
        · exact h3 hm
    · rw [if_neg hu]
      exact h3

theorem parseIdentity_identityString (i : Identity)
    (hna : '@' ∉ i.nick) (hua : '@' ∉ i.user) (hnb : '!' ∉ i.nick)
    (hub : i.nick = [] → '!' ∉ i.user)
    (hha : i.nick = [] → i.user = [] → '@' ∉ i.host) :
    parseIdentity (identityString i) = i := by
  obtain ⟨n, u, h⟩ := i
  simp only at hna hua hnb hub hha
  unfold identityString
  simp only
  by_cases hn : n = []
  · subst hn
    rw [if_neg (by simp)]
    by_cases hu : u = []
    · subst hu
      rw [if_neg (by simp)]
      unfold parseIdentity
      rw [splitOnFirst_single_none (hha rfl rfl)]
    · rw [if_pos (by simpa using hu)]
      unfold parseIdentity
      rw [splitOnFirst_single_append h hua]
      dsimp only
      rw [splitOnFirst_single_none (hub rfl)]
  · rw [if_pos (by simpa using hn)]
    unfold parseIdentity
    rw [show (n ++ '!' :: u ++ '@' :: h : Str) = (n ++ '!' :: u) ++ '@' :: h from by simp]
    rw [splitOnFirst_single_append h (by
      intro hm
      rcases List.mem_append.mp hm with hm | hm
      · exact hna hm
      · rcases List.mem_cons.mp hm with hm | hm
        · exact absurd hm (by decide)
        · exact hua hm)]
    dsimp only
    rw [splitOnFirst_single_append u hnb]

theorem body_join (cmd : Str) (mids : List Str) :
    cmd ++ (if mids ≠ [] then ' ' :: List.intercalate [' '] mids else []) =
      List.intercalate [' '] (cmd :: mids) := by
  cases mids with
  | nil => simp [intercalate_single]
  | cons x t =>
    rw [if_pos (by simp), intercalate_cons₂]

theorem intercalate_append_single (ws : List Str) (t : Str) (hne : ws ≠ []) :
    List.intercalate [' '] (ws ++ [t]) = List.intercalate [' '] ws ++ ' ' :: t := by
  induction ws with
  | nil => exact absurd rfl hne
  | cons w rest ih =>
    cases rest with
    | nil =>
      rw [intercalate_single]
      rw [show (([w] ++ [t] : List Str)) = [w, t] from rfl]
      rw [intercalate_cons₂, intercalate_single]
    | cons x tl =>
      rw [show ((w :: x :: tl) ++ [t] : List Str) = w :: ((x :: tl) ++ [t]) from rfl]
      rw [show ((x :: tl) ++ [t] : List Str) = x :: (tl ++ [t]) from rfl]
      rw [intercalate_cons₂]
      rw [show (x :: (tl ++ [t]) : List Str) = (x :: tl) ++ [t] from rfl]
      rw [ih (by simp)]
      rw [intercalate_cons₂]
      simp [List.append_assoc]

theorem args_decomp {l : List Str} {t : Str} (h : l.getLast? = some t) :
    l = l.dropLast ++ [t] := by
  have hne : l ≠ [] := by
    intro he
    rw [he] at h
    exact Option.noConfusion h
  have h2 := List.dropLast_append_getLast hne
  rw [List.getLast?_eq_getLast l hne] at h
  injection h with h3
  rw [h3] at h2
  exact h2.symm

theorem stage2_noargs (id : Identity) (cmd : Str) (hcmd : eventWordOk cmd) :
    parseEventCmd id cmd = some ⟨id, cmd, []⟩ := by
  obtain ⟨h1, h2, h3⟩ := hcmd
  have hsplit : splitOnFirst [' ', ':'] cmd = none := by
    have := @sp2_words_none [cmd] (by
      intro w hw
      rcases List.mem_singleton.mp hw with rfl
      exact ⟨h1, h2, h3⟩)
    rwa [intercalate_single] at this
  simp only [parseEventCmd]
  rw [hsplit]
  dsimp only
  rw [fieldsSpace_single h1 h2]
  rfl

theorem stage2_bare (id : Identity) (cmd : Str) (mids : List Str) (t : Str)
    (hws : ∀ w ∈ cmd :: mids ++ [t], eventWordOk w) :
    parseEventCmd id (List.intercalate [' '] (cmd :: mids ++ [t])) =
      some ⟨id, cmd, mids ++ [t]⟩ := by
  have hsplit := sp2_words_none hws
  simp only [parseEventCmd]
  rw [hsplit]
  dsimp only
  rw [fieldsSpace_intercalate (fun w hw => ⟨(hws w hw).1, (hws w hw).2.1⟩)]
  simp

theorem stage2_marked (id : Identity) (cmd : Str) (mids : List Str) (t : Str)
    (hws : ∀ w ∈ cmd :: mids, eventWordOk w) :
    parseEventCmd id (List.intercalate [' '] (cmd :: mids) ++ ' ' :: ':' :: t) =
      some ⟨id, cmd, mids ++ [t]⟩ := by
  have hsplit := sp2_words_marker t hws (by simp)
  simp only [parseEventCmd]
  rw [hsplit]
  dsimp only
  rw [fieldsSpace_intercalate (fun w hw => ⟨(hws w hw).1, (hws w hw).2.1⟩)]

theorem parseEvent_split (i : Identity) (body : Str) (hid : identityOk i)
    (hbne : body ≠ [])
    (hb1 : ∀ c, body.head? = some c → c ≠ ':' ∧ goIsSpace c = false)
    (hb2 : ∀ c, body.getLast? = some c → goIsSpace c = false) :
    parseEvent ((if i.host ≠ [] then ':' :: (identityString i ++ [' ']) else []) ++ body) =
      parseEventCmd i body := by
  rcases hid with hid | ⟨hh, hsp1, hsp2, hsp3, hna, hua, hnb, hub, hha⟩
  · subst hid
    rw [if_neg (by simp [emptyIdentity]), List.nil_append]
    have htrim : trimSpace body = body :=
      trimSpace_eq_self (fun c hc => (hb1 c hc).2) hb2
    simp only [parseEvent, htrim]
    rw [if_neg (by simpa using hbne)]
    rw [if_neg (by
      intro hc
      exact (hb1 ':' hc).1 rfl)]
  · rw [if_pos (by simpa using hh)]
    have hnosp : ' ' ∉ identityString i := identityString_no_space hsp1 hsp2 hsp3
    have hline : (':' :: (identityString i ++ [' ']) ++ body : Str) =
        (':' :: identityString i) ++ ' ' :: body := by simp
    rw [hline]
    have htrim : trimSpace ((':' :: identityString i) ++ ' ' :: body) =
        (':' :: identityString i) ++ ' ' :: body := by
      refine trimSpace_eq_self (fun c hc => ?_) (fun c hc => ?_)
      · rw [List.cons_append, List.head?_cons] at hc
        injection hc with hc
        rw [← hc]
        decide
      · rw [show ((':' :: identityString i) ++ ' ' :: body : Str) =
          ((':' :: identityString i) ++ [' ']) ++ body from by simp] at hc
        rw [getLast?_append_right _ hbne] at hc
        exact hb2 c hc
    simp only [parseEvent, htrim]
    rw [if_neg (by simp)]
    rw [if_pos (by rw [List.cons_append, List.head?_cons])]
    rw [splitOnFirst_single_append body (by
      intro hm
      rcases List.mem_cons.mp hm with hm | hm
      · exact absurd hm (by decide)
      · exact hnosp hm)]
    dsimp only
    rw [List.tail_cons, parseIdentity_identityString i hna hua hnb hub hha]

/-! ### C1: the round-trip claim -/

/-- C1 counterexample: the event with command `A` and params `["", "b"]` is
valid per the claim (non-empty command, only the last param may contain
spaces, and the claim explicitly covers parameter lists containing empty
strings), yet serializing gives `"A  b"` and re-parsing drops the empty
parameter, so the round trip does not return the original message. -/
theorem C1_counterexample :
    eventString ⟨emptyIdentity, "A".toList, [[], "b".toList]⟩ = some "A  b".toList ∧
    parseEvent "A  b".toList = some ⟨emptyIdentity, "A".toList, ["b".toList]⟩ ∧
    parseEvent "A  b".toList ≠ some ⟨emptyIdentity, "A".toList, [[], "b".toList]⟩ := by
  refine ⟨by decide, by decide, by decide⟩

/-- C1 (amended): for every event with a non-empty, space-free command that
does not start with `:` nor start or end with whitespace, a round-trip safe
identity, non-empty space-free non-trailing arguments that do not start with
`:`, and a non-empty trailing argument that does not end in whitespace,
parsing the serialized event returns the event unchanged. -/
theorem C1_roundtrip_amended (e : Event) (h : eventValid e) :
    (eventString e).bind parseEvent = some e := by
  obtain ⟨hc1, hc2, hc3, hc4, hid, hmids, htr⟩ := h
  have hcmdok : eventWordOk e.command :=
    ⟨hc1, hc2, fun hcontra => (hc3 ':' hcontra).1 rfl⟩
  cases hlast : e.args.getLast? with
  | none =>
    have hargs : e.args = [] := by
      cases ha : e.args with
      | nil => rfl
      | cons a rest =>
        rw [ha] at hlast
        have h2 : (a :: rest : List Str).getLast?.isSome :=
          List.getLast?_isSome.mpr (by simp)
        rw [hlast] at h2
        exact Bool.noConfusion h2
    simp only [eventString, hlast]
    rw [Option.some_bind]
    rw [parseEvent_split e.ident e.command hid hc1 hc3 hc4]
    rw [stage2_noargs e.ident e.command hcmdok]
    rw [← hargs]
  | some t =>
    obtain ⟨htne, htlast⟩ := htr t hlast
    have hdecomp := args_decomp hlast
    have hmidsok : ∀ w ∈ e.command :: e.args.dropLast, eventWordOk w := by
      intro w hw
      rcases List.mem_cons.mp hw with hw | hw
      · rw [hw]
        exact hcmdok
      · exact hmids w hw
    have hjws_head :
        (List.intercalate [' '] (e.command :: e.args.dropLast)).head? = e.command.head? :=
      intercalate_head? _ hc1
    have hjws_ne : List.intercalate [' '] (e.command :: e.args.dropLast) ≠ [] := by
      intro hx
      cases hcm : e.command with
      | nil => exact hc1 hcm
      | cons c cs =>
        rw [hx, hcm] at hjws_head
        exact Option.noConfusion hjws_head
    cases t with
    | nil => exact absurd rfl htne
    | cons tc t' =>
      simp only [eventString, hlast]
      rw [Option.some_bind]
      rw [List.append_assoc _ e.command, body_join, List.append_assoc]
      have hb1 : ∀ c, (List.intercalate [' '] (e.command :: e.args.dropLast)).head? = some c →
          c ≠ ':' ∧ goIsSpace c = false := by
        intro c hc
        rw [hjws_head] at hc
        exact hc3 c hc
      by_cases hcond : ((tc :: t' : Str).contains ' ' || decide (tc = ':')) = true
      · rw [if_pos hcond]
        rw [parseEvent_split e.ident _ hid
          (by
            intro hx
            exact hjws_ne (List.append_eq_nil.mp hx).1)
          (by
            intro c hc
            rw [head?_append_left _ hjws_ne] at hc
            exact hb1 c hc)
          (by
            intro c hc
            rw [show (List.intercalate [' '] (e.command :: e.args.dropLast) ++
                ' ' :: ':' :: tc :: t' : Str) =
              (List.intercalate [' '] (e.command :: e.args.dropLast) ++ [' ', ':']) ++
                tc :: t' from by simp] at hc
            rw [getLast?_append_right _ (by simp)] at hc
            exact htlast c hc)]
        rw [stage2_marked e.ident e.command e.args.dropLast (tc :: t') hmidsok]
        rw [← hdecomp]
      · rw [if_neg hcond]
        have hnotsp : ' ' ∉ (tc :: t' : Str) := by
          intro hm2
          apply hcond
          have hcontains : (tc :: t' : Str).contains ' ' = true := by simpa using hm2
          rw [hcontains]
          simp
        have hne_colon : tc ≠ ':' := by
          intro hx
          apply hcond
          rw [hx]
          simp
        have htok : eventWordOk (tc :: t') :=
          ⟨by simp, hnotsp, by simpa using hne_colon⟩
        rw [parseEvent_split e.ident _ hid
          (by
            intro hx
            exact hjws_ne (List.append_eq_nil.mp hx).1)
          (by
            intro c hc
            rw [head?_append_left _ hjws_ne] at hc
            exact hb1 c hc)
          (by
            intro c hc
            rw [show (List.intercalate [' '] (e.command :: e.args.dropLast) ++
                ' ' :: tc :: t' : Str) =
              (List.intercalate [' '] (e.command :: e.args.dropLast) ++ [' ']) ++
                tc :: t' from by simp] at hc
            rw [getLast?_append_right _ (by simp)] at hc
            exact htlast c hc)]
        rw [show (List.intercalate [' '] (e.command :: e.args.dropLast) ++
            ' ' :: tc :: t' : Str) =
          List.intercalate [' '] ((e.command :: e.args.dropLast) ++ [tc :: t']) from
          (intercalate_append_single _ _ (by simp)).symm]
        rw [stage2_bare e.ident e.command e.args.dropLast (tc :: t') (by
          intro w hw
          rcases List.mem_append.mp hw with hw | hw
          · rcases List.mem_cons.mp hw with hw | hw
            · rw [hw]
              exact hcmdok
            · exact hmids w hw
          · rcases List.mem_singleton.mp hw with rfl
            exact htok)]
        rw [← hdecomp]

/-- Witness for C1 (amended) at `:nick!user@host PRIVMSG #chan :hello world`. -/
theorem C1_witness :
    (eventString ⟨⟨"nick".toList, "user".toList, "host".toList⟩, "PRIVMSG".toList,
      ["#chan".toList, "hello world".toList]⟩).bind parseEvent =
      some ⟨⟨"nick".toList, "user".toList, "host".toList⟩, "PRIVMSG".toList,
        ["#chan".toList, "hello world".toList]⟩ :=
  C1_roundtrip_amended
    ⟨⟨"nick".toList, "user".toList, "host".toList⟩, "PRIVMSG".toList,
      ["#chan".toList, "hello world".toList]⟩
    (by
      refine ⟨by decide, by decide, by decide, by decide, Or.inr (by decide), ?_, ?_⟩
      · intro a ha
        have ha2 : a = "#chan".toList := by simpa using ha
        subst ha2
        exact ⟨by decide, by decide, by decide⟩
      · intro t ht
        have ht2 : "hello world".toList = t := Option.some.inj ht
        subst ht2
        refine ⟨by decide, ?_⟩
        intro c hc
        have hc2 : 'd' = c := Option.some.inj hc
        subst hc2
        decide)

end GoIrc
